import Mathlib

/-!
Verification of the drill library (packages drill, filesys, filesys/markdown)
against its specification.  Each Go function relevant to the claims is given a
shallow embedding as an executable Lean definition; theorems about the claims
follow the definitions.

Conventions:
* Go `int` is modelled by `Int` (the operations involved cannot overflow a
  64-bit integer on the inputs where they are exercised).
* Go `nil` interface/pointer values are modelled by `Option`.
* Functions of the source whose Go recursion is not structural are embedded
  with an explicit fuel parameter; `none` means the fuel ran out, so a result
  of `none` for every fuel amount models non-termination of the Go code.
-/

namespace Drill

/-- Embedding of `drill.Index`:
```
func Index(i, len int) int {
  if len <= 0 { return -1 }
  if i < 0 { i += len }
  if i < 0 || i >= len { return -1 }
  return i
}
``` -/
def Index (i len : Int) : Int :=
  if len ≤ 0 then -1
  else
    let i' := if i < 0 then i + len else i
    if i' < 0 ∨ i' ≥ len then -1 else i'

/-- A concrete instantiation of the `drill.Node` interface hierarchy:
`branch` implements `OrderedBranch` (its `OrderedChildren` returns the stored
list, which may contain `nil`, i.e. `none`, entries); `leaf` implements only
`Node`. -/
inductive DNode where
  | leaf
  | branch (children : List (Option DNode))

/-- `OrderedChildren` of a `DNode`.  Only ever invoked on `branch` values
(`leaf` does not implement `OrderedBranch`). -/
def orderedChildren : DNode → List (Option DNode)
  | .leaf => []
  | .branch cs => cs

/-- Whether the node implements the `OrderedBranch` interface. -/
def isOrderedBranch : DNode → Bool
  | .leaf => false
  | .branch _ => true

/-- Loop body of `drill.descendants`, parameterised by the recursive call:
```
for _, child := range n.OrderedChildren() {
  if child == nil { continue }
  *d = append(*d, child)
  if o, ok := n.(OrderedBranch); ok {   // note: checks (and passes) n, not child
    descendants(d, o)
  }
}
```
The type assertion `n.(OrderedBranch)` is on the loop's own parameter `n`,
whose static type is already `OrderedBranch`; on a non-nil value it always
succeeds, so the recursive call receives `n` itself.  `rec` is the fuel-limited
recursive call. -/
def descendantsLoop (rec : List DNode → DNode → Option (List DNode))
    (d : List DNode) (cs : List (Option DNode)) (n : DNode) :
    Option (List DNode) :=
  match cs with
  | [] => some d
  | none :: rest => descendantsLoop rec d rest n
  | some child :: rest =>
    match rec (d ++ [child]) n with
    | none => none
    | some d' => descendantsLoop rec d' rest n

/-- Fuel-limited embedding of `drill.descendants`.  Each Go-level recursive
call consumes one unit of fuel; `none` means the fuel ran out. -/
def descendants : Nat → List DNode → DNode → Option (List DNode)
  | 0, _, _ => none
  | fuel + 1, d, n => descendantsLoop (descendants fuel) d (orderedChildren n) n

/-- Fuel-limited embedding of `drill.Descendants`:
```
func Descendants(n Node) []Node {
  d := []Node{}
  if n == nil { return d }
  if o, ok := n.(OrderedBranch); ok { descendants(&d, o) }
  return d
}
``` -/
def Descendants (fuel : Nat) (n : Option DNode) : Option (List DNode) :=
  match n with
  | none => some []
  | some m => if isOrderedBranch m then descendants fuel [] m else some []

end Drill

namespace Drill

theorem descendants_branch_one_child (fuel : Nat) :
    ∀ d, descendants fuel d (.branch [some .leaf]) = none := by
  induction fuel with
  | zero => intro d; rfl
  | succ fuel ih =>
    intro d
    simp only [descendants, orderedChildren, descendantsLoop]
    rw [ih (d ++ [DNode.leaf])]

/-- C1: the claim states that `Descendants(n)` terminates with a finite
materialized list whenever `n` is an `OrderedBranch` with at least one non-nil
child.  The code instead recurses on the parent node `n` itself (the type
assertion `n.(OrderedBranch)` always succeeds), so on the node
`branch [leaf]` — an ordered branch with a single non-nil child — the
enumeration never finishes: it returns no result for every fuel amount. -/
theorem C1_descendants_diverges (fuel : Nat) :
    Descendants fuel (some (.branch [some .leaf])) = none := by
  simp only [Descendants, isOrderedBranch, if_true]
  exact descendants_branch_one_child fuel []

/-- Witness for C1 at a concrete fuel amount. -/
theorem C1_descendants_diverges_witness :
    Descendants 5 (some (.branch [some .leaf])) = none :=
  C1_descendants_diverges 5

/-- C4: `Index(i, len)` returns `i` for all `0 ≤ i < len`; a negative `i`
wraps by adding `len`, so `Index(-1, len) = len - 1` for `len > 0`; and the
result is negative whenever `len ≤ 0`, or `i ≥ len`, or `i + len < 0`. -/
theorem C4_Index_spec (i len : Int) :
    (0 ≤ i ∧ i < len → Index i len = i) ∧
    (0 < len → Index (-1) len = len - 1) ∧
    (len ≤ 0 ∨ len ≤ i ∨ i + len < 0 → Index i len < 0) := by
  refine ⟨?_, ?_, ?_⟩
  · rintro ⟨h0, h1⟩
    simp only [Index]
    split_ifs <;> omega
  · intro h
    simp only [Index]
    split_ifs <;> omega
  · intro h
    simp only [Index]
    split_ifs <;> omega

/-- Witness for C4 at concrete inputs. -/
theorem C4_Index_spec_witness :
    Index 2 5 = 2 ∧ Index (-1) 5 = 4 ∧ Index 7 5 < 0 := by
  refine ⟨?_, ?_, ?_⟩
  · exact (C4_Index_spec 2 5).1 (by norm_num)
  · have h := (C4_Index_spec 2 5).2.1 (by norm_num)
    simpa using h
  · exact (C4_Index_spec 7 5).2.2 (by norm_num)

end Drill

namespace Filesys

/-- Abstract model of an `io/fs` filesystem value (an external collaborator of
the repository, treated at its interface boundary):
* `readDir`: the result of `fs.ReadDir(fsys, ".")` — `none` models an error
  (in which case the code under test observes a nil entry list), `some l` the
  ordered list of entry names;
* `hasSubFS`: whether the dynamic value implements the `fs.SubFS` interface;
* `subs`: the sub-filesystem views by entry name; a missing key models the
  `Sub` method returning an error for that name. -/
inductive FSys where
  | mk (readDir : Option (List String)) (hasSubFS : Bool)
       (subs : List (String × FSys))

def FSys.readDir : FSys → Option (List String)
  | .mk r _ _ => r

def FSys.hasSubFS : FSys → Bool
  | .mk _ h _ => h

def FSys.subs : FSys → List (String × FSys)
  | .mk _ _ s => s

/-- The `Sub` method of `fs.SubFS`: `none` models an error result. -/
def FSys.subMethod (f : FSys) (name : String) : Option FSys :=
  (f.subs.find? (fun p => p.1 == name)).map (fun p => p.2)

/-- The `fs.Sub` helper: delegates to the `Sub` method when the value
implements `fs.SubFS`; otherwise it wraps the filesystem in a sub-view, which
always succeeds on the valid entry names produced by `ReadDir` (the wrapped
view is taken from the `subs` table, defaulting to an empty filesystem). -/
def fsSub (f : FSys) (name : String) : Option FSys :=
  if f.hasSubFS then f.subMethod name
  else some ((f.subMethod name).getD (FSys.mk none false []))

/-- Embedding of `filesys.FS`.  The `fsys` field is the embedded `fs.FS`
interface value; `none` models a nil interface.  The `handlers` field of the
Go struct is not consulted by any of the ordered-child operations and is
omitted. -/
structure FS where
  fsys : Option FSys

/-- Go panics (index out of range, ...) made explicit. -/
inductive PanicOr (α : Type) where
  | panic
  | ok (val : α)

/-- Embedding of `FS.Len`:
```
func (f *FS) Len() int {
  if f.FS == nil { return 0 }
  sub, _ := fs.ReadDir(f.FS, ".")
  return len(sub)
}
```
A `ReadDir` error is modelled as yielding a nil entry list. -/
def FS.Len (f : FS) : Int :=
  match f.fsys with
  | none => 0
  | some fsys =>
    match fsys.readDir with
    | none => 0
    | some subs => subs.length

/-- Embedding of `FS.OrderedChild`: reads the directory, normalizes `i` with
`drill.Index`, and wraps the sub-filesystem of the selected entry.  The list
index is guarded by `Index`, which guarantees it is in range, so the
out-of-range default of `getD` is unreachable. -/
def FS.OrderedChild (f : FS) (i : Int) : Option FS :=
  match f.fsys with
  | none => none
  | some fsys =>
    match fsys.readDir with
    | none => none
    | some subs =>
      let j := Drill.Index i subs.length
      if j < 0 then none
      else
        match fsSub fsys (subs.getD j.toNat "") with
        | none => none
        | some sub => some ⟨some sub⟩

/-- Go slice index assignment `nodes[i] = v`: panics when `i` is out of range
of the slice's current length. -/
def sliceSet (l : List FS) (i : Nat) (v : FS) : PanicOr (List FS) :=
  if i < l.length then .ok (l.set i v) else .panic

/-- The loop of `FS.OrderedChildren`:
```
for i, entry := range subs {
  if sub, err := fsys.Sub(entry.Name()); err == nil {
    nodes[i] = &FS{FS: sub}
  }
}
``` -/
def ocLoop (fsys : FSys) (entries : List String) (i : Nat) (nodes : List FS) :
    PanicOr (List FS) :=
  match entries with
  | [] => .ok nodes
  | name :: rest =>
    match fsys.subMethod name with
    | some sub =>
      match sliceSet nodes i ⟨some sub⟩ with
      | .panic => .panic
      | .ok nodes' => ocLoop fsys rest (i + 1) nodes'
    | none => ocLoop fsys rest (i + 1) nodes

/-- Embedding of `FS.OrderedChildren`:
```
func (f *FS) OrderedChildren() []drill.Node {
  if f.FS == nil { return nil }
  fsys, ok := f.FS.(fs.SubFS)
  if !ok { return nil }
  subs, err := fs.ReadDir(fsys, ".")
  if err != nil { return nil }
  nodes := make([]drill.Node, 0, len(subs))
  for i, entry := range subs { ... nodes[i] = &FS{FS: sub} ... }
  return nodes
}
```
The result distinguishes a nil slice (`ok none`) from a non-nil slice
(`ok (some nodes)`); `make([]drill.Node, 0, len(subs))` creates a slice of
length 0, which is what the loop then assigns into by index. -/
def FS.OrderedChildren (f : FS) : PanicOr (Option (List FS)) :=
  match f.fsys with
  | none => .ok none
  | some fsys =>
    if fsys.hasSubFS then
      match fsys.readDir with
      | none => .ok none
      | some subs =>
        match ocLoop fsys subs 0 [] with
        | .panic => .panic
        | .ok nodes => .ok (some nodes)
    else .ok none

/-- A SubFS-implementing filesystem with one readable entry `"a"` whose `Sub`
method succeeds: a model of any readable, non-empty directory. -/
def demoDir : FSys :=
  .mk (some ["a"]) true [("a", .mk (some []) true [])]

/-- C2: the claim states that the child-returning operations never panic, and
in particular that `FS.OrderedChildren` returns normally on every readable,
non-empty directory.  The code allocates `nodes` with length 0
(`make([]drill.Node, 0, len(subs))`) and then assigns `nodes[i]`, which is an
index-out-of-range panic as soon as the directory has one entry whose `Sub`
succeeds; here it is evaluated on such a directory. -/
theorem C2_orderedChildren_panics :
    FS.OrderedChildren ⟨some demoDir⟩ = .panic := rfl

/-- C9: when the wrapped `fs.FS` does not implement `fs.SubFS`,
`OrderedChildren` returns nil even on a readable, non-empty directory, while
`Len` is positive and `OrderedChild 0` is non-nil: ordered enumeration
requires the SubFS capability although indexed ordered lookup does not. -/
theorem C9_orderedChildren_requires_subFS (fsys : FSys) (l : List String)
    (hsub : fsys.hasSubFS = false) (hrd : fsys.readDir = some l)
    (hne : l ≠ []) :
    FS.OrderedChildren ⟨some fsys⟩ = .ok none ∧
    0 < FS.Len ⟨some fsys⟩ ∧
    FS.OrderedChild ⟨some fsys⟩ 0 ≠ none := by
  have hlen : 0 < (l.length : Int) := by
    have : l.length ≠ 0 := fun h => hne (List.eq_nil_of_length_eq_zero h)
    omega
  refine ⟨?_, ?_, ?_⟩
  · simp only [FS.OrderedChildren, hsub, Bool.false_eq_true, if_false]
  · simp only [FS.Len, hrd]
    exact hlen
  · simp only [FS.OrderedChild, hrd]
    have hidx : Drill.Index 0 l.length = 0 := by
      simp only [Drill.Index]
      split_ifs <;> omega
    rw [hidx]
    simp only [show ¬((0 : Int) < 0) by omega, if_false, fsSub, hsub,
      Bool.false_eq_true, if_false]
    intro h
    simp at h

/-- Witness for C9 on a concrete non-SubFS filesystem with one entry. -/
theorem C9_orderedChildren_requires_subFS_witness :
    FS.OrderedChildren ⟨some (.mk (some ["a"]) false [])⟩ = .ok none ∧
    0 < FS.Len ⟨some (.mk (some ["a"]) false [])⟩ ∧
    FS.OrderedChild ⟨some (.mk (some ["a"]) false [])⟩ 0 ≠ none :=
  C9_orderedChildren_requires_subFS (.mk (some ["a"]) false []) ["a"]
    rfl rfl (by simp)

end Filesys

namespace Markdown

/-- The data of a goldmark `ast.Heading` consulted by the segmenter: its
level, its `"section"` and `"id"` attributes (an attribute is modelled as
present with a byte-string value, or absent; `AttributeString` values of a
non-byte-string type are treated by the code like absent ones), and its
textual content `heading.Text(source)`. -/
structure Heading where
  level : Nat
  attrSection : Option String
  attrId : Option String
  text : String
deriving DecidableEq, Repr

/-- The block-tree nodes the segmenter distinguishes: headings, `Section`
nodes (with their optional heading, resolved name, and children), and any
other block node (`block tag`), which the segmenter treats as opaque content.
The document root is modelled as a heading-less `sec` wrapping the document's
child list. -/
inductive MdNode where
  | heading (h : Heading)
  | block (tag : Nat)
  | sec (heading : Option Heading) (name : String) (children : List MdNode)

/-- The name-resolution of `compileSection` when a new section is begun at a
heading:
```
id, _ := heading.AttributeString("section")
if id, ok := id.([]byte); ok { section.Name = string(id) }
else {
  id, _ := heading.AttributeString("id")
  if id, ok := id.([]byte); ok { section.Name = string(id) }
  else { section.Name = string(heading.Text(source)) }
}
``` -/
def resolveName (h : Heading) : String :=
  match h.attrSection with
  | some s => s
  | none =>
    match h.attrId with
    | some s => s
    | none => h.text

/-- The loop state of `compileSection`: the children already settled in the
parent's list (`out`, in final order), and the current accumulating section's
heading, name, and children.  `NewSection()` has a nil heading, name `""` and
no children. -/
structure SegState where
  out : List MdNode
  curHeading : Option Heading
  curName : String
  curChildren : List MdNode

/-- `section.Heading != nil || section.ChildCount() > 0`. -/
def emitNeeded (s : SegState) : Bool :=
  s.curHeading.isSome || !s.curChildren.isEmpty

/-- One iteration of the `compileSection` loop over `current`:
* a heading at exactly the target level first causes the pending section (when
  emittable) to be inserted into the parent immediately before the heading —
  the heading itself stays in the parent's child list — and then begins a new
  section carrying that heading;
* any other node is moved out of the parent into the current section
  (`section.AppendChild(section, current)` unlinks it from the parent). -/
def segStep (level : Nat) (s : SegState) (current : MdNode) : SegState :=
  match current with
  | .heading h =>
    if h.level = level then
      { out :=
          if emitNeeded s then
            s.out ++ [.sec s.curHeading s.curName s.curChildren, .heading h]
          else s.out ++ [.heading h],
        curHeading := some h,
        curName := resolveName h,
        curChildren := [] }
    else { s with curChildren := s.curChildren ++ [current] }
  | _ => { s with curChildren := s.curChildren ++ [current] }

/-- After the loop: `if section.Heading != nil || section.ChildCount() > 0 {
parent.AppendChild(parent, section) }`. -/
def segFinish (s : SegState) : List MdNode :=
  if emitNeeded s then s.out ++ [.sec s.curHeading s.curName s.curChildren]
  else s.out

/-- One segmentation pass of `compileSection` over a parent's child list at
the given level, without the recursion into the emitted sections. -/
def segmentOnce (level : Nat) (children : List MdNode) : List MdNode :=
  segFinish (children.foldl (segStep level) ⟨[], none, "", []⟩)

/-- The action on one emitted node of the trailing loop of `compileSection`:
```
for _, section := range subs {
  if section.Heading != nil { compileSection(section, source, level+1) }
}
```
The sections in the parent's new child list are exactly those appended to
`subs` during the pass, and recursion replaces the children of each one that
carries a heading by `f` of them; the orphan (nil heading) and the headings
are left alone. -/
def recurseEmitted (f : List MdNode → List MdNode) : MdNode → MdNode
  | .sec (some hd) nm cs => .sec (some hd) nm (f cs)
  | other => other

/-- Fuel-limited embedding of `compileSection`.  The Go recursion terminates
because each call increases `level` and `if level >= 6 { return }` stops it;
the fuel realizes this bound and is irrelevant for any amount ≥ `6 - level`
(the guard stops the recursion before the fuel can run out). -/
def compileSectionK (fuel : Nat) (children : List MdNode) (level : Nat) :
    List MdNode :=
  let out := segmentOnce level children
  match fuel with
  | 0 => out
  | fuel + 1 =>
    if 6 ≤ level then out
    else out.map (recurseEmitted (fun cs => compileSectionK fuel cs (level + 1)))

/-- Embedding of `compileSection parent source level`, as the transformation
of the parent's child list (`6 - level` is exactly the recursion budget the
level guard enforces). -/
def compileSection (children : List MdNode) (level : Nat) : List MdNode :=
  compileSectionK (6 - level) children level

/-- Splits a child list at the headings of the given level: the leading run
before the first such heading, and each such heading paired with the run of
nodes it owns (up to the next heading of that level). -/
def splitRuns (level : Nat) : List MdNode → List MdNode × List (Heading × List MdNode)
  | [] => ([], [])
  | n :: rest =>
    match n with
    | .heading h =>
      if h.level = level then
        ([], (h, (splitRuns level rest).1) :: (splitRuns level rest).2)
      else (n :: (splitRuns level rest).1, (splitRuns level rest).2)
    | _ => (n :: (splitRuns level rest).1, (splitRuns level rest).2)

/-- The sibling items a segmentation pass leaves in the parent for the leading
run: the orphan section, when the run is non-empty. -/
def orphanItems (lead : List MdNode) : List MdNode :=
  if lead.isEmpty then [] else [.sec none "" lead]

/-- The sibling items a segmentation pass leaves in the parent for the heading
runs: each heading stays, immediately followed by its emitted section, whose
children are given by `f` applied to the heading's run. -/
def runItems (f : List MdNode → List MdNode)
    (runs : List (Heading × List MdNode)) : List MdNode :=
  (runs.map fun p => [.heading p.1, .sec (some p.1) (resolveName p.1) (f p.2)]).flatten

theorem segFold_shape (level : Nat) (cs : List MdNode) (s : SegState) :
    segFinish (cs.foldl (segStep level) s) =
      s.out ++
      (if s.curHeading.isSome || !(s.curChildren ++ (splitRuns level cs).1).isEmpty
       then [.sec s.curHeading s.curName (s.curChildren ++ (splitRuns level cs).1)]
       else []) ++
      runItems id (splitRuns level cs).2 := by
  induction cs generalizing s with
  | nil =>
    simp only [List.foldl_nil, splitRuns, List.append_nil, runItems, List.map_nil,
      List.flatten_nil, segFinish, emitNeeded]
    split_ifs <;> simp
  | cons c rest ih =>
    rw [List.foldl_cons, ih]
    cases c with
    | heading h =>
      by_cases hl : h.level = level
      · simp only [segStep, hl, if_true, splitRuns, Option.isSome_some, Bool.true_or,
          if_true, List.nil_append, runItems, List.map_cons, List.flatten_cons]
        by_cases he : emitNeeded s
        · rw [if_pos he]
          have he' : (s.curHeading.isSome || !(s.curChildren ++ []).isEmpty) = true := by
            simpa [emitNeeded] using he
          rw [if_pos he']
          simp [runItems]
        · rw [if_neg he]
          have he' : ¬((s.curHeading.isSome || !(s.curChildren ++ []).isEmpty) = true) := by
            simpa [emitNeeded] using he
          rw [if_neg he']
          simp [runItems]
      · simp only [segStep, hl, if_false, splitRuns]
        simp only [List.append_assoc, List.singleton_append]
    | block tag =>
      simp only [segStep, splitRuns]
      simp only [List.append_assoc, List.singleton_append]
    | sec hd nm cs' =>
      simp only [segStep, splitRuns]
      simp only [List.append_assoc, List.singleton_append]

/-- The characterization of one segmentation pass: the child list becomes the
optional leading orphan section followed by, for each level-`level` heading in
order, the heading itself immediately followed by its section. -/
theorem segmentOnce_shape (level : Nat) (children : List MdNode) :
    segmentOnce level children =
      orphanItems (splitRuns level children).1 ++
      runItems id (splitRuns level children).2 := by
  rw [segmentOnce, segFold_shape]
  simp only [orphanItems, List.nil_append, Option.isSome_none, Bool.false_or]
  split_ifs with h1 h2 h3 <;> simp_all

theorem orphanItems_map (f : List MdNode → List MdNode) (lead : List MdNode) :
    (orphanItems lead).map (recurseEmitted f) = orphanItems lead := by
  simp only [orphanItems]
  split_ifs <;> rfl

theorem runItems_map (f : List MdNode → List MdNode)
    (runs : List (Heading × List MdNode)) :
    (runItems id runs).map (recurseEmitted f) = runItems f runs := by
  induction runs with
  | nil => rfl
  | cons p rest ih =>
    simp only [runItems, List.map_cons, List.flatten_cons] at ih ⊢
    simp only [List.map_append, ih, List.map_cons, List.map_nil]
    rfl

/-- The characterization of `compileSection`: the child list becomes the
optional leading orphan section, then for each level-`level` heading in order
the heading itself immediately followed by its emitted section, whose own
children are the heading's run, recursively segmented at `level + 1` unless
`level ≥ 6`. -/
theorem compileSection_shape (level : Nat) (children : List MdNode) :
    compileSection children level =
      orphanItems (splitRuns level children).1 ++
      runItems (fun run => if 6 ≤ level then run else compileSection run (level + 1))
        (splitRuns level children).2 := by
  by_cases h6 : 6 ≤ level
  · have hk : 6 - level = 0 := by omega
    rw [compileSection, hk]
    have h0 : compileSectionK 0 children level = segmentOnce level children := rfl
    rw [h0, segmentOnce_shape]
    congr 1
    simp only [if_pos h6]
    rfl
  · have hk : 6 - level = (6 - (level + 1)) + 1 := by omega
    rw [compileSection, hk]
    have h1 : compileSectionK ((6 - (level + 1)) + 1) children level =
        (segmentOnce level children).map
          (recurseEmitted (fun cs => compileSectionK (6 - (level + 1)) cs (level + 1))) := by
      simp only [compileSectionK]
      rw [if_neg h6]
    rw [h1, segmentOnce_shape, List.map_append, orphanItems_map, runItems_map]
    congr 1
    simp only [if_neg h6]
    rfl

/-- C3 counterexample: the claim says that after the segmenter runs, a
level-`L` heading is no longer a separate sibling in the parent's child list.
On the concrete document `[# A, text]` the pass at level 1 leaves the heading
in the child list, immediately before the section it produced. -/
theorem C3_counterexample :
    compileSection [.heading ⟨1, none, none, "A"⟩, .block 0] 1 =
      [.heading ⟨1, none, none, "A"⟩,
       .sec (some ⟨1, none, none, "A"⟩) "A" [.sec none "" [.block 0]]] ∧
    MdNode.heading ⟨1, none, none, "A"⟩ ∈
      compileSection [.heading ⟨1, none, none, "A"⟩, .block 0] 1 := by
  refine ⟨rfl, ?_⟩
  rw [show compileSection [.heading ⟨1, none, none, "A"⟩, .block 0] 1 =
      [.heading ⟨1, none, none, "A"⟩,
       .sec (some ⟨1, none, none, "A"⟩) "A" [.sec none "" [.block 0]]] from rfl]
  exact List.mem_cons_self _ _

/-- C3 (amended): after the segmenter runs over a parent's child list at level
`L`, the non-heading content is moved out of the flat list into the emitted
Section nodes, but each level-`L` heading remains a separate sibling in the
parent's child list, immediately preceding the single Section node that owns
its content; the result is an optional leading orphan section followed by one
heading/Section pair per level-`L` heading, built in one top-down pass. -/
theorem C3_segmenter_output (level : Nat) (children : List MdNode) :
    compileSection children level =
      orphanItems (splitRuns level children).1 ++
      runItems (fun run => if 6 ≤ level then run else compileSection run (level + 1))
        (splitRuns level children).2 ∧
    ∀ p ∈ (splitRuns level children).2,
      MdNode.heading p.1 ∈ compileSection children level := by
  refine ⟨compileSection_shape level children, ?_⟩
  intro p hp
  rw [compileSection_shape]
  apply List.mem_append_right
  simp only [runItems, List.mem_flatten]
  refine ⟨_, List.mem_map_of_mem _ hp, ?_⟩
  exact List.mem_cons_self _ _

/-- Witness for C3 (amended) at a concrete input. -/
theorem C3_segmenter_output_witness :
    MdNode.heading ⟨1, none, none, "B"⟩ ∈
      compileSection [.block 9, .heading ⟨1, none, none, "B"⟩] 1 := by
  have h := (C3_segmenter_output 1 [.block 9, .heading ⟨1, none, none, "B"⟩]).2
  exact h (⟨1, none, none, "B"⟩, []) (by
    rw [show splitRuns 1 [.block 9, .heading ⟨1, none, none, "B"⟩] =
        ([.block 9], [(⟨1, none, none, "B"⟩, [])]) from rfl]
    exact List.mem_cons_self _ _)

theorem sec_mem_compileSection_name (level : Nat) (children : List MdNode)
    (hd : Heading) (nm : String) (cs : List MdNode)
    (hmem : MdNode.sec (some hd) nm cs ∈ compileSection children level) :
    nm = resolveName hd := by
  rw [compileSection_shape] at hmem
  rcases List.mem_append.1 hmem with h | h
  · simp only [orphanItems] at h
    split_ifs at h
    · simp at h
    · rw [List.mem_singleton] at h
      cases h
  · simp only [runItems, List.mem_flatten] at h
    obtain ⟨l, hl, hx⟩ := h
    obtain ⟨p, _, rfl⟩ := List.mem_map.1 hl
    rcases List.mem_cons.1 hx with h | h
    · cases h
    · rcases List.mem_cons.1 h with h | h
      · cases h
        rfl
      · simp at h

/-- C5: the name of every emitted section carrying a heading is resolved once
at creation, by checking in priority order the heading's `"section"`
attribute, else its `"id"` attribute, else the heading's own text, the first
present winning; a heading carrying both `"section"` and `"id"` resolves to
the `"section"` value, and a heading with only plain text resolves to that
text. -/
theorem C5_name_resolution :
    (∀ level children hd nm cs,
      MdNode.sec (some hd) nm cs ∈ compileSection children level →
        nm = resolveName hd) ∧
    (∀ lvl v rest t, resolveName ⟨lvl, some v, rest, t⟩ = v) ∧
    (∀ lvl v t, resolveName ⟨lvl, none, some v, t⟩ = v) ∧
    (∀ lvl t, resolveName ⟨lvl, none, none, t⟩ = t) :=
  ⟨fun level children hd nm cs h =>
      sec_mem_compileSection_name level children hd nm cs h,
   fun _ _ _ _ => rfl, fun _ _ _ => rfl, fun _ _ => rfl⟩

/-- Witness for C5 at concrete inputs: a heading with both attributes resolves
to the `"section"` one; an emitted section's name is its heading's text. -/
theorem C5_name_resolution_witness :
    "A" = resolveName ⟨1, none, none, "A"⟩ ∧
    resolveName ⟨1, some "s", some "i", "t"⟩ = "s" ∧
    resolveName ⟨2, none, some "i", "t"⟩ = "i" ∧
    resolveName ⟨3, none, none, "t"⟩ = "t" := by
  refine ⟨?_, C5_name_resolution.2.1 1 "s" (some "i") "t",
    C5_name_resolution.2.2.1 2 "i" "t", C5_name_resolution.2.2.2 3 "t"⟩
  refine C5_name_resolution.1 1 [.heading ⟨1, none, none, "A"⟩]
    ⟨1, none, none, "A"⟩ "A" [] ?_
  rw [show compileSection [.heading ⟨1, none, none, "A"⟩] 1 =
      [.heading ⟨1, none, none, "A"⟩,
       .sec (some ⟨1, none, none, "A"⟩) "A" []] from rfl]
  simp

/-- An orphan section: a `Section` with no heading and `Name == ""`. -/
def isOrphanSec : MdNode → Bool
  | .sec none nm _ => nm == ""
  | _ => false

/-- Whether a node is not a `Section`.  A freshly parsed goldmark tree
contains no `Section` nodes (they are produced only by the transformer), so
the segmenter's input child lists satisfy this everywhere. -/
def noSecNode : MdNode → Bool
  | .sec _ _ _ => false
  | _ => true

/-- Within one child list, every node after the first is not an orphan
section: so the list holds at most one orphan, and only in first position. -/
def orphanListOk (l : List MdNode) : Bool :=
  (l.drop 1).all fun n => !isOrphanSec n

mutual

/-- `orphanListOk`, recursively at every section of a tree. -/
def orphanInv : MdNode → Bool
  | .heading _ => true
  | .block _ => true
  | .sec _ _ cs => orphanListOk cs && orphanInvList cs

def orphanInvList : List MdNode → Bool
  | [] => true
  | n :: ns => orphanInv n && orphanInvList ns

end

theorem isOrphanSec_false_of_noSec (n : MdNode) (h : noSecNode n = true) :
    isOrphanSec n = false := by
  cases n <;> simp_all [noSecNode, isOrphanSec]

theorem orphanInv_of_noSec (n : MdNode) (h : noSecNode n = true) :
    orphanInv n = true := by
  cases n <;> simp_all [noSecNode, orphanInv]

theorem orphanListOk_of_noSec (l : List MdNode)
    (h : ∀ x ∈ l, noSecNode x = true) : orphanListOk l = true := by
  simp only [orphanListOk, List.all_eq_true]
  intro n hn
  simp [isOrphanSec_false_of_noSec n (h n (List.mem_of_mem_drop hn))]

theorem orphanInvList_of_mem (l : List MdNode)
    (h : ∀ x ∈ l, orphanInv x = true) : orphanInvList l = true := by
  induction l with
  | nil => rfl
  | cons n ns ih => simp_all [orphanInvList]

theorem splitRuns_subset (level : Nat) (cs : List MdNode) :
    (∀ x ∈ (splitRuns level cs).1, x ∈ cs) ∧
    (∀ p ∈ (splitRuns level cs).2, ∀ x ∈ p.2, x ∈ cs) := by
  induction cs with
  | nil => simp [splitRuns]
  | cons n rest ih =>
    obtain ⟨ih1, ih2⟩ := ih
    cases n with
    | heading h =>
      by_cases hl : h.level = level
      · simp only [splitRuns, hl, if_true]
        constructor
        · intro x hx
          simp at hx
        · intro p hp x hx
          rcases List.mem_cons.1 hp with rfl | hp
          · exact List.mem_cons_of_mem _ (ih1 x hx)
          · exact List.mem_cons_of_mem _ (ih2 p hp x hx)
      · simp only [splitRuns, hl, if_false]
        constructor
        · intro x hx
          rcases List.mem_cons.1 hx with rfl | hx
          · exact List.mem_cons_self _ _
          · exact List.mem_cons_of_mem _ (ih1 x hx)
        · intro p hp x hx
          exact List.mem_cons_of_mem _ (ih2 p hp x hx)
    | block tag =>
      simp only [splitRuns]
      constructor
      · intro x hx
        rcases List.mem_cons.1 hx with rfl | hx
        · exact List.mem_cons_self _ _
        · exact List.mem_cons_of_mem _ (ih1 x hx)
      · intro p hp x hx
        exact List.mem_cons_of_mem _ (ih2 p hp x hx)
    | sec hd nm cs' =>
      simp only [splitRuns]
      constructor
      · intro x hx
        rcases List.mem_cons.1 hx with rfl | hx
        · exact List.mem_cons_self _ _
        · exact List.mem_cons_of_mem _ (ih1 x hx)
      · intro p hp x hx
        exact List.mem_cons_of_mem _ (ih2 p hp x hx)

theorem mem_runItems (f : List MdNode → List MdNode)
    (runs : List (Heading × List MdNode)) (x : MdNode)
    (hx : x ∈ runItems f runs) :
    (∃ p ∈ runs, x = .heading p.1) ∨
    (∃ p ∈ runs, x = .sec (some p.1) (resolveName p.1) (f p.2)) := by
  simp only [runItems, List.mem_flatten] at hx
  obtain ⟨l, hl, hxl⟩ := hx
  obtain ⟨p, hp, rfl⟩ := List.mem_map.1 hl
  rcases List.mem_cons.1 hxl with rfl | hxl
  · exact Or.inl ⟨p, hp, rfl⟩
  · rcases List.mem_cons.1 hxl with rfl | hxl
    · exact Or.inr ⟨p, hp, rfl⟩
    · simp at hxl

theorem orphanInv_shape_parts (lead : List MdNode)
    (runs : List (Heading × List MdNode)) (f : List MdNode → List MdNode)
    (hlead : ∀ x ∈ lead, noSecNode x = true)
    (hruns : ∀ p ∈ runs, orphanListOk (f p.2) = true ∧ orphanInvList (f p.2) = true) :
    orphanListOk (orphanItems lead ++ runItems f runs) = true ∧
    orphanInvList (orphanItems lead ++ runItems f runs) = true := by
  have hro : ∀ x ∈ runItems f runs, isOrphanSec x = false := by
    intro x hx
    rcases mem_runItems f runs x hx with ⟨p, _, rfl⟩ | ⟨p, _, rfl⟩ <;> rfl
  constructor
  · simp only [orphanItems]
    split_ifs with hl
    · simp only [List.nil_append, orphanListOk, List.all_eq_true]
      intro n hn
      simp [hro n (List.mem_of_mem_drop hn)]
    · simp only [List.singleton_append, orphanListOk, List.drop_one,
        List.tail_cons, List.all_eq_true]
      intro n hn
      simp [hro n hn]
  · apply orphanInvList_of_mem
    intro x hx
    rcases List.mem_append.1 hx with hx | hx
    · simp only [orphanItems] at hx
      split_ifs at hx with hl
      · simp at hx
      · rw [List.mem_singleton] at hx
        subst hx
        simp only [orphanInv]
        rw [orphanListOk_of_noSec lead hlead,
          orphanInvList_of_mem lead (fun x hx => orphanInv_of_noSec x (hlead x hx))]
        rfl
    · rcases mem_runItems f runs x hx with ⟨p, hp, rfl⟩ | ⟨p, hp, rfl⟩
      · rfl
      · simp only [orphanInv]
        rw [(hruns p hp).1, (hruns p hp).2]
        rfl

theorem orphanInv_compileSection_base (level : Nat) (children : List MdNode)
    (h6 : 6 ≤ level) (hflat : ∀ x ∈ children, noSecNode x = true) :
    orphanListOk (compileSection children level) = true ∧
    orphanInvList (compileSection children level) = true := by
  rw [compileSection_shape]
  apply orphanInv_shape_parts
  · intro x hx
    exact hflat x ((splitRuns_subset level children).1 x hx)
  · intro p hp
    rw [if_pos h6]
    have hs : ∀ x ∈ p.2, noSecNode x = true := fun x hx =>
      hflat x ((splitRuns_subset level children).2 p hp x hx)
    exact ⟨orphanListOk_of_noSec _ hs,
      orphanInvList_of_mem _ (fun x hx => orphanInv_of_noSec x (hs x hx))⟩

theorem orphanInv_compileSection_aux :
    ∀ (k level : Nat) (children : List MdNode), 6 - level ≤ k →
      (∀ x ∈ children, noSecNode x = true) →
      orphanListOk (compileSection children level) = true ∧
      orphanInvList (compileSection children level) = true := by
  intro k
  induction k with
  | zero =>
    intro level children hk hflat
    exact orphanInv_compileSection_base level children (by omega) hflat
  | succ k ih =>
    intro level children hk hflat
    by_cases h6 : 6 ≤ level
    · exact orphanInv_compileSection_base level children h6 hflat
    · rw [compileSection_shape]
      apply orphanInv_shape_parts
      · intro x hx
        exact hflat x ((splitRuns_subset level children).1 x hx)
      · intro p hp
        rw [if_neg h6]
        exact ih (level + 1) p.2 (by omega) (fun x hx =>
          hflat x ((splitRuns_subset level children).2 p hp x hx))

/-- C6: in the tree the segmenter produces from a section-free child list, any
one parent holds at most one orphan section (a Section with no heading and
`Name == ""`), and when present it is the first child, preceding every
heading-bearing sibling: `orphanListOk` states that no node after the first is
an orphan, and `orphanInvList` states it recursively inside every produced
section. -/
theorem C6_orphan_first (level : Nat) (children : List MdNode)
    (hflat : ∀ x ∈ children, noSecNode x = true) :
    orphanListOk (compileSection children level) = true ∧
    orphanInvList (compileSection children level) = true :=
  orphanInv_compileSection_aux (6 - level) level children le_rfl hflat

/-- Witness for C6 on a concrete document with text before its heading. -/
theorem C6_orphan_first_witness :
    orphanListOk
      (compileSection [.block 9, .heading ⟨1, none, none, "A"⟩, .block 0] 1) = true ∧
    orphanInvList
      (compileSection [.block 9, .heading ⟨1, none, none, "A"⟩, .block 0] 1) = true :=
  C6_orphan_first 1 [.block 9, .heading ⟨1, none, none, "A"⟩, .block 0] (by decide)

/-- C7: for every emitted heading-bearing section the segmenter recurses over
its own children at `level + 1` (second part), except that when `level ≥ 6`
recursion stops: every section in the output of a level-≥6 pass keeps its raw
run as children, free of further `Section` grouping, so headings deeper than
level 6 remain un-grouped flat content inside them (first part). -/
theorem C7_recursion_bound (level : Nat) (children : List MdNode)
    (hflat : ∀ x ∈ children, noSecNode x = true) :
    (6 ≤ level → ∀ hd nm cs, MdNode.sec hd nm cs ∈ compileSection children level →
        ∀ x ∈ cs, noSecNode x = true) ∧
    (level < 6 → ∀ p ∈ (splitRuns level children).2,
        MdNode.sec (some p.1) (resolveName p.1) (compileSection p.2 (level + 1)) ∈
          compileSection children level) := by
  constructor
  · intro h6 hd nm cs hmem x hx
    rw [compileSection_shape] at hmem
    rcases List.mem_append.1 hmem with h | h
    · simp only [orphanItems] at h
      split_ifs at h with hl
      · simp at h
      · rw [List.mem_singleton] at h
        cases h
        exact hflat x ((splitRuns_subset level children).1 x hx)
    · rcases mem_runItems _ _ _ h with ⟨p, hp, he⟩ | ⟨p, hp, he⟩
      · cases he
      · cases he
        rw [if_pos h6] at hx
        exact hflat x ((splitRuns_subset level children).2 p hp x hx)
  · intro h6 p hp
    rw [compileSection_shape]
    apply List.mem_append_right
    simp only [runItems, List.mem_flatten]
    refine ⟨_, List.mem_map_of_mem _ hp, ?_⟩
    rw [if_neg (by omega : ¬ 6 ≤ level)]
    exact List.mem_cons_of_mem _ (List.mem_cons_self _ _)

/-- Witness for C7: at a level-6 pass, a level-7 heading stays as flat content
inside the emitted section. -/
theorem C7_recursion_bound_witness :
    noSecNode (MdNode.heading ⟨7, none, none, "x"⟩) = true := by
  have h := (C7_recursion_bound 6 [.heading ⟨7, none, none, "x"⟩] (by decide)).1
  refine h (by norm_num) none "" [.heading ⟨7, none, none, "x"⟩] ?_ _ ?_
  · rw [show compileSection [.heading ⟨7, none, none, "x"⟩] 6 =
        [.sec none "" [.heading ⟨7, none, none, "x"⟩]] from rfl]
    exact List.mem_cons_self _ _
  · exact List.mem_cons_self _ _

/-- Whether a node is a `Section`. -/
def isSec : MdNode → Bool
  | .sec _ _ _ => true
  | _ => false

/-- The direct children of a wrapped ast node.  Only sections (and the
document root, modelled as a heading-less section) have children the walk can
visit. -/
def MdNode.childList : MdNode → List MdNode
  | .sec _ _ cs => cs
  | _ => []

/-- Embedding of `Node.WalkChildSections` as the list of nodes it visits: the
walk enters the wrapped node, continues over its children, and answers
`WalkSkipChildren` for every child, so it visits exactly the direct children
that are `Section`s, in document order. -/
def childSections (n : MdNode) : List MdNode :=
  n.childList.filter isSec

/-- The `Name` of a section node (the walk only ever reads it on sections). -/
def secName : MdNode → String
  | .sec _ nm _ => nm
  | _ => ""

/-- The observable behaviour of one call `renderer.Render(w, source, node)`
on a stream: the bytes written to `w` before returning, and the returned
error. -/
structure RenderResult where
  written : String
  err : Option String

/-- Embedding of `markdown.Node`: the wrapped tree position (`sect`, the
`section` field), the shared source bytes, and the shared renderer (`none`
models a nil renderer).  The external goldmark renderer is abstracted as a
function of the source and the wrapped node.  The `root` back-pointer is not
consulted by the operations under test and is omitted. -/
structure MNode where
  sect : MdNode
  source : String
  renderer : Option (String → MdNode → RenderResult)

/-- Embedding of `Node.derive`: a copy of the node differing only in the
wrapped tree position. -/
def MNode.derive (n : MNode) (s : MdNode) : MNode :=
  { n with sect := s }

/-- Embedding of `Node.UnorderedChild`: the walk stops at the first child
section whose `Name` equals `name` and derives a view of it; nil when none
matches. -/
def MNode.UnorderedChild (n : MNode) (name : String) : Option MNode :=
  ((childSections n.sect).find? (fun c => secName c == name)).map n.derive

/-- Embedding of `Node.UnorderedChildren`: the walk runs
`sections[child.Name] = n.derive(child)` for every child section in document
order.  The built Go map is modelled by the list of those assignments in walk
order; `goMapGet` below reads it with Go's assignment semantics. -/
def MNode.UnorderedChildren (n : MNode) : List (String × MNode) :=
  (childSections n.sect).map (fun c => (secName c, n.derive c))

/-- Indexing the Go map built by a sequence of assignments: the latest
assignment to the key wins. -/
def goMapGet (m : List (String × MNode)) (k : String) : Option MNode :=
  (m.reverse.find? (fun p => p.1 == k)).map (fun p => p.2)

theorem find?_eq_filter_head? {α : Type} (p : α → Bool) (l : List α) :
    l.find? p = (l.filter p).head? := by
  induction l with
  | nil => rfl
  | cons a l ih =>
    by_cases h : p a
    · rw [List.find?_cons_of_pos _ h, List.filter_cons_of_pos h]
      rfl
    · rw [List.find?_cons_of_neg _ h, List.filter_cons_of_neg h, ih]

theorem goMapGet_map_pairs (d : MdNode → MNode) (k : String) (l : List MdNode) :
    goMapGet (l.map (fun c => (secName c, d c))) k =
      ((l.filter (fun c => secName c == k)).getLast?).map d := by
  simp only [goMapGet]
  rw [← List.map_reverse, List.find?_map, List.getLast?_eq_head?_reverse,
    ← List.filter_reverse, ← find?_eq_filter_head?, Option.map_map]
  rfl

/-- Sections used by the C10 divergence example: two siblings named `"a"`. -/
def sA1 : MdNode := .sec (some ⟨1, none, none, "a"⟩) "a" [.block 0]

def sA2 : MdNode := .sec (some ⟨2, none, none, "a"⟩) "a" [.block 1]

/-- A markdown node with two direct child sections sharing the name `"a"`. -/
def demoDup : MNode := ⟨.sec none "" [sA1, sA2], "", none⟩

/-- C10: `UnorderedChild(name)` returns a view of the first matching child
section in document order while the map built by `UnorderedChildren()` sends
the name to the last one, so on a tree with two sibling sections of the same
name the two results denote different sections. -/
theorem C10_unordered_first_vs_last :
    (∀ n name, MNode.UnorderedChild n name =
      ((childSections n.sect).filter (fun c => secName c == name)).head?.map
        n.derive) ∧
    (∀ n name, goMapGet (MNode.UnorderedChildren n) name =
      ((childSections n.sect).filter (fun c => secName c == name)).getLast?.map
        n.derive) ∧
    MNode.UnorderedChild demoDup "a" ≠ goMapGet (MNode.UnorderedChildren demoDup) "a" := by
  refine ⟨?_, ?_, ?_⟩
  · intro n name
    rw [MNode.UnorderedChild, find?_eq_filter_head?]
  · intro n name
    rw [MNode.UnorderedChildren, goMapGet_map_pairs]
  · have h1 : MNode.UnorderedChild demoDup "a" = some ⟨sA1, "", none⟩ := rfl
    have h2 : goMapGet (MNode.UnorderedChildren demoDup) "a" = some ⟨sA2, "", none⟩ := rfl
    rw [h1, h2]
    intro h
    injection h with h'
    have h3 := congrArg MNode.sect h'
    simp [sA1, sA2] at h3

/-- Witness for C10 at the concrete duplicate-name node: the first-match
characterization of `UnorderedChild`, instantiated. -/
theorem C10_unordered_first_vs_last_witness :
    MNode.UnorderedChild demoDup "a" =
      ((childSections demoDup.sect).filter (fun c => secName c == "a")).head?.map
        demoDup.derive :=
  C10_unordered_first_vs_last.1 demoDup "a"

/-- The events the `render` task emits on the write end of the pipe. -/
inductive PipeEvent where
  | write (s : String)
  | closeWithError (e : String)
  | close

/-- What the consumer ultimately observes from a read-to-completion of the
pipe's read end. -/
structure ReadOutcome where
  data : String
  err : Option String

/-- Consumer view of an `io.Pipe`: reading to the end yields the bytes
written before the first close, then the error of a `CloseWithError` (a later
plain `Close` does not overwrite a previously stored error) or clean
end-of-stream after a plain `Close`. -/
def pipeRead : List PipeEvent → ReadOutcome
  | [] => ⟨"", none⟩
  | .write s :: rest => ⟨s ++ (pipeRead rest).data, (pipeRead rest).err⟩
  | .closeWithError e :: _ => ⟨"", some e⟩
  | .close :: _ => ⟨"", none⟩

/-- Embedding of `markdown.render` as the pipe events of the spawned task:
```
func render(n *Node, w *io.PipeWriter) {
  if err := n.renderer.Render(w, n.source, n.section); err != nil {
    w.CloseWithError(err)
  }
  w.Close()
}
``` -/
def renderEvents (n : MNode) (r : String → MdNode → RenderResult) :
    List PipeEvent :=
  [.write (r n.source n.sect).written] ++
  (match (r n.source n.sect).err with
   | some e => [.closeWithError e]
   | none => []) ++
  [.close]

/-- Embedding of `Node.FragmentReader`: an explicit `"no renderer"` error when
no renderer is configured; otherwise the reader fed by the spawned `render`
task, given here as the consumer's read-to-completion view of the pipe. -/
def MNode.FragmentReader (n : MNode) : Except String ReadOutcome :=
  match n.renderer with
  | none => .error "no renderer"
  | some r => .ok (pipeRead (renderEvents n r))

/-- C8: `FragmentReader` returns the explicit `"no renderer"` error exactly
when no renderer is configured; otherwise it returns a reader, and the reader
delivers every byte the renderer wrote together with the renderer's error, if
any, as the read error — a mid-stream failure is propagated, never a silently
truncated or empty result. -/
theorem C8_fragmentReader (n : MNode) :
    (n.renderer = none ↔ n.FragmentReader = Except.error "no renderer") ∧
    (∀ r, n.renderer = some r →
      n.FragmentReader =
        Except.ok ⟨(r n.source n.sect).written, (r n.source n.sect).err⟩) := by
  have hok : ∀ r, n.renderer = some r →
      n.FragmentReader =
        Except.ok ⟨(r n.source n.sect).written, (r n.source n.sect).err⟩ := by
    intro r hr
    simp only [MNode.FragmentReader, hr]
    congr 1
    cases he : (r n.source n.sect).err with
    | none =>
      simp [renderEvents, he, pipeRead, String.append_empty]
    | some e =>
      simp [renderEvents, he, pipeRead, String.append_empty]
  refine ⟨⟨?_, ?_⟩, hok⟩
  · intro h
    simp [MNode.FragmentReader, h]
  · intro h
    cases hr : n.renderer with
    | none => rfl
    | some r =>
      rw [hok r hr] at h
      cases h

/-- Witness for C8: a renderer-less node yields the explicit error; a node
whose renderer writes `"abc"` and then fails with `"boom"` yields a reader
delivering `"abc"` and the error `"boom"`. -/
theorem C8_fragmentReader_witness :
    (MNode.mk (.sec none "" []) "" none).FragmentReader =
      Except.error "no renderer" ∧
    (MNode.mk (.sec none "" []) "src"
        (some (fun _ _ => ⟨"abc", some "boom"⟩))).FragmentReader =
      Except.ok ⟨"abc", some "boom"⟩ :=
  ⟨(C8_fragmentReader _).1.mp rfl, (C8_fragmentReader _).2 _ rfl⟩

end Markdown
